import Mathlib

/-!
# Verification of school-tg-tt-bot: build manifest and content pipeline

This development embeds, in Lean 4, the build-dependency manifest of the
repository (`conanfile.py`, class `SchoolTgTtBotConan`) and the
content-ingestion / deduplication / delivery pipeline that the repository's
specification describes (Item Store, Deduplicator, Delivery Dispatcher).
The manifest is embedded directly from the source; the pipeline components
are modelled from the specification, since their source is not part of the
visible repository.
-/

/-! ## The build manifest (`src/conanfile.py`) -/

/-- A single dependency requirement in the Conan dependency graph, as produced
by a `self.requires(ref)` call.  `isOverride` records whether the requirement
was declared with Conan's override mechanism. -/
structure Require where
  ref : String
  isOverride : Bool
deriving DecidableEq, Repr

/-- The `compiler` setting block: `conanfile.py` touches its `cppstd`
subsetting. -/
structure CompilerSetting where
  name : String
  version : String
  cppstd : Option String
deriving DecidableEq, Repr

/-- The manifest's settings, from `settings = "os", "arch", "compiler",
"build_type"` in `conanfile.py`. -/
structure Settings where
  os : String
  arch : String
  compiler : CompilerSetting
  build_type : String
deriving DecidableEq, Repr

/-- The mutable state a Conan recipe method can act on: the settings and the
declared regular and build-time requirements. -/
structure ConanState where
  settings : Settings
  requires : List Require
  tool_requires : List Require
deriving DecidableEq, Repr

namespace SchoolTgTtBotConan

/-- Embedding of `SchoolTgTtBotConan.requirements`: it performs exactly two
`self.requires` calls, `"libpqxx/7.9.0"` (the PostgreSQL client) and
`"nlohmann_json/3.11.2"` (the JSON library); the remaining lines are
comments, so nothing else is added to the dependency graph. -/
def requirements (st : ConanState) : ConanState :=
  { st with
      requires := st.requires ++
        [{ ref := "libpqxx/7.9.0", isOverride := false },
         { ref := "nlohmann_json/3.11.2", isOverride := false }] }

/-- Embedding of `SchoolTgTtBotConan.configure`: it sets
`self.settings.compiler.cppstd = "20"` and nothing else. -/
def configure (st : ConanState) : ConanState :=
  { st with
      settings :=
        { st.settings with
            compiler := { st.settings.compiler with cppstd := some "20" } } }

/-- Embedding of `SchoolTgTtBotConan.build_requirements`: its body is
`pass`, so it changes nothing. -/
def build_requirements (st : ConanState) : ConanState :=
  st

end SchoolTgTtBotConan

/-- C1: The manifest declares a relational-database client library, a JSON
library, and a C++20 standard requirement: evaluating `requirements` yields a
database client dependency (`libpqxx`, the PostgreSQL client) and a JSON
library dependency (`nlohmann_json`), and `configure` sets the compiler C++
standard to `"20"` for every settings configuration. -/
theorem C1_manifest_declares_db_json_cpp20 (st : ConanState) :
    ({ ref := "libpqxx/7.9.0", isOverride := false } : Require) ∈
        (SchoolTgTtBotConan.requirements st).requires ∧
    ({ ref := "nlohmann_json/3.11.2", isOverride := false } : Require) ∈
        (SchoolTgTtBotConan.requirements st).requires ∧
    (SchoolTgTtBotConan.configure st).settings.compiler.cppstd = some "20" := by
  refine ⟨?_, ?_, rfl⟩ <;>
    simp [SchoolTgTtBotConan.requirements]

/-- C9: `requirements` declares exactly two dependencies — `libpqxx/7.9.0`
and `nlohmann_json/3.11.2`, in that order — and, despite its comments about
an override mechanism for libcurl, performs no override or exclusion at all:
it adds nothing to the dependency graph beyond the two `requires` calls, and
neither added requirement is an override or mentions libcurl. -/
theorem C9_requirements_exactly_two_no_libcurl_override (st : ConanState) :
    (SchoolTgTtBotConan.requirements st).requires =
      st.requires ++
        [{ ref := "libpqxx/7.9.0", isOverride := false },
         { ref := "nlohmann_json/3.11.2", isOverride := false }] ∧
    (SchoolTgTtBotConan.requirements st).settings = st.settings ∧
    (SchoolTgTtBotConan.requirements st).tool_requires = st.tool_requires ∧
    (List.all
      [({ ref := "libpqxx/7.9.0", isOverride := false } : Require),
       { ref := "nlohmann_json/3.11.2", isOverride := false }]
      (fun r => !r.isOverride && !(List.isPrefixOf "libcurl".data r.ref.data))) = true := by
  refine ⟨rfl, rfl, rfl, by decide⟩

/-- C10: `build_requirements` declares no build-time requirements: for every
input state it is a no-op leaving the dependency graph and all other
manifest state unchanged. -/
theorem C10_build_requirements_noop (st : ConanState) :
    SchoolTgTtBotConan.build_requirements st = st :=
  rfl

/-! ## The content pipeline (modelled from the spec)

The application source is not part of the visible repository; the
specification reconstructs an Item Store, Deduplicator and Delivery
Dispatcher.  The following definitions are modelled from the spec's
contracts (§3, §4.1, §4.3, §4.4). -/

/-- Modelled from the spec: `ContentItem` (§3), a discovered unit of content;
its source is missing from the visible repository. -/
structure ContentItem where
  source_name : String
  source_id : String
  discovered_at : Nat
  payload : String
deriving DecidableEq, Repr

/-- Modelled from the spec: the delivery status variant (§3, §9): one of
`pending`, `delivered`, `failed_permanent`. -/
inductive Status where
  | pending
  | delivered
  | failed_permanent
deriving DecidableEq, Repr

/-- Modelled from the spec: `DeliveryRecord` (§3), the outcome of attempting
to deliver a ContentItem; at most one per item, stored with it. -/
structure DeliveryRecord where
  item : ContentItem
  status : Status
  attempts : Nat
  last_attempt_at : Option Nat
  delivered_at : Option Nat
deriving DecidableEq, Repr

/-- Modelled from the spec: the Item Store's persisted state, the list of all
records ever inserted (§4.1); the store itself is missing from the visible
repository. -/
abbrev Store := List DeliveryRecord

/-- The `(source_name, source_id)` key, globally unique by the §3 invariant. -/
def keyOf (c : ContentItem) : String × String :=
  (c.source_name, c.source_id)

/-- Whether some record with key `k` is present in the store. -/
def hasKey (st : Store) (k : String × String) : Bool :=
  st.any (fun r => keyOf r.item == k)

/-- How many records with key `k` the store holds. -/
def countKey (st : Store) (k : String × String) : Nat :=
  (st.filter (fun r => keyOf r.item == k)).length

/-- The store's uniqueness invariant (§3): at most one record per key. -/
def NoDupKeys (st : Store) : Prop :=
  ∀ k, countKey st k ≤ 1

/-- A fresh `pending` DeliveryRecord for a newly inserted item (§3 lifecycle). -/
def freshRecord (c : ContentItem) : DeliveryRecord :=
  { item := c, status := .pending, attempts := 0,
    last_attempt_at := none, delivered_at := none }

/-- Modelled from the spec: `insert_new` (§4.1); its source is missing from
the visible repository.  Attempts to insert each item with a fresh `pending`
record; items whose key already exists are silently skipped; returns the new
store together with only the items actually inserted. -/
def insert_new (st : Store) : List ContentItem → Store × List ContentItem
  | [] => (st, [])
  | c :: rest =>
    if hasKey st (keyOf c) then
      insert_new st rest
    else
      let out := insert_new (st ++ [freshRecord c]) rest
      (out.1, c :: out.2)

/-- Modelled from the spec: the store-side error taxonomy (§7). -/
inductive StoreError where
  | NotFoundError
deriving DecidableEq, Repr

/-- Update the first record satisfying `p` (the store holds at most one
record per key under the §3 invariant). -/
def updateFirst (p : DeliveryRecord → Bool) (f : DeliveryRecord → DeliveryRecord) :
    Store → Store
  | [] => []
  | r :: rest => if p r then f r :: rest else r :: updateFirst p f rest

/-- The record-level effect of `mark_delivered`: a `pending` record becomes
`delivered` with `delivered_at` set; a record already `delivered` or
`failed_permanent` is left unchanged (§3 invariant: transitions only go
forward out of `pending`). -/
def deliverUpdate (now : Nat) (r : DeliveryRecord) : DeliveryRecord :=
  match r.status with
  | .pending => { r with status := .delivered, delivered_at := some now }
  | _ => r

/-- Modelled from the spec: `mark_delivered` (§4.1); its source is missing
from the visible repository.  Fails with `NotFoundError` when no record for
the key exists; otherwise applies `deliverUpdate` to the record. -/
def mark_delivered (st : Store) (k : String × String) (now : Nat) :
    Except StoreError Store :=
  if hasKey st k then
    .ok (updateFirst (fun r => keyOf r.item == k) (deliverUpdate now) st)
  else
    .error .NotFoundError

/-- The record-level effect of `mark_failed`: increments `attempts`, stamps
`last_attempt_at`, and, when `permanent` and the record is still `pending`,
transitions it to `failed_permanent` (§3 invariant keeps `delivered` and
`failed_permanent` records' status unchanged). -/
def failUpdate (permanent : Bool) (now : Nat) (r : DeliveryRecord) : DeliveryRecord :=
  { r with
      attempts := r.attempts + 1,
      last_attempt_at := some now,
      status :=
        if permanent && r.status == .pending then .failed_permanent else r.status }

/-- Modelled from the spec: `mark_failed` (§4.1); its source is missing from
the visible repository. -/
def mark_failed (st : Store) (k : String × String) (permanent : Bool) (now : Nat) :
    Except StoreError Store :=
  if hasKey st k then
    .ok (updateFirst (fun r => keyOf r.item == k) (failUpdate permanent now) st)
  else
    .error .NotFoundError

/-- The record currently stored for key `k`, if any. -/
def recordOf (st : Store) (k : String × String) : Option DeliveryRecord :=
  st.find? (fun r => keyOf r.item == k)

/-- The status stored for key `k`, if any. -/
def statusOf (st : Store) (k : String × String) : Option Status :=
  (recordOf st k).map (·.status)

/-- The attempts count stored for key `k`, if any. -/
def attemptsOf (st : Store) (k : String × String) : Option Nat :=
  (recordOf st k).map (·.attempts)

/-- The `delivered_at` field stored for key `k`, if any. -/
def deliveredAtOf (st : Store) (k : String × String) : Option (Option Nat) :=
  (recordOf st k).map (·.delivered_at)

/-- Modelled from the spec: `known_ids` (§4.1); its source is missing from
the visible repository.  Every id already recorded for a source. -/
def known_ids (st : Store) (source_name : String) : List String :=
  (st.filter (fun r => r.item.source_name == source_name)).map
    (fun r => r.item.source_id)

/-- Ordering of content items by discovery time (for §4.1 `pending_items`). -/
def byTime (a b : ContentItem) : Prop :=
  a.discovered_at ≤ b.discovered_at

instance : DecidableRel byTime :=
  fun a b => Nat.decLe a.discovered_at b.discovered_at

instance : IsTotal ContentItem byTime :=
  ⟨fun a b => Nat.le_total a.discovered_at b.discovered_at⟩

instance : IsTrans ContentItem byTime :=
  ⟨fun _ _ _ => Nat.le_trans⟩

/-- Modelled from the spec: `pending_items` (§4.1); its source is missing
from the visible repository.  Items in `pending` status for the source,
ordered by `discovered_at` ascending, truncated to `limit`. -/
def pending_items (st : Store) (source_name : String) (limit : Nat) :
    List ContentItem :=
  (List.insertionSort byTime
    ((st.filter
        (fun r => r.status == .pending && r.item.source_name == source_name)).map
      (·.item))).take limit

/-- Modelled from the spec: `RawItem` (§4.2), an item as returned by the
Source Fetcher, with its stable per-item identifier. -/
structure RawItem where
  id : String
  payload : String
deriving DecidableEq, Repr

/-- Translation of a raw item into a ContentItem for a given source and
discovery time (§4.3). -/
def toContentItem (source_name : String) (now : Nat) (r : RawItem) : ContentItem :=
  { source_name := source_name, source_id := r.id,
    discovered_at := now, payload := r.payload }

/-- Modelled from the spec: the Deduplicator's `diff` (§4.3); its source is
missing from the visible repository.  Keeps the raw items whose id is absent
from `known`, mapping each to a ContentItem; an id already emitted earlier in
the same snapshot is skipped (tie-break: first occurrence in fetch order). -/
def diff (source_name : String) (now : Nat) :
    List RawItem → List String → List ContentItem
  | [], _ => []
  | r :: rest, known =>
    if known.contains r.id then
      diff source_name now rest known
    else
      toContentItem source_name now r :: diff source_name now rest (r.id :: known)

/-- Keep only the first occurrence of each id, given ids already seen. -/
def dedupFirstAux (seen : List String) : List RawItem → List RawItem
  | [] => []
  | r :: rest =>
    if seen.contains r.id then dedupFirstAux seen rest
    else r :: dedupFirstAux (r.id :: seen) rest

/-- Keep only the first occurrence of each id in a snapshot. -/
def dedupFirst (l : List RawItem) : List RawItem :=
  dedupFirstAux [] l

/-- Modelled from the spec: the operations through which persisted state is
ever mutated (§3 lifecycle: records are created by `insert_new` and mutated
only by `mark_delivered` / `mark_failed`). -/
inductive StoreOp where
  | insert (items : List ContentItem)
  | markDelivered (k : String × String) (now : Nat)
  | markFailed (k : String × String) (permanent : Bool) (now : Nat)

/-- Run a fallible store operation, keeping the old state on error (§7:
`NotFoundError` is logged, not silently applied). -/
def runStore (st : Store) (e : Except StoreError Store) : Store :=
  match e with
  | .ok st' => st'
  | .error _ => st

/-- One store operation applied to the persisted state. -/
def applyOp (st : Store) : StoreOp → Store
  | .insert items => (insert_new st items).1
  | .markDelivered k now => runStore st (mark_delivered st k now)
  | .markFailed k permanent now => runStore st (mark_failed st k permanent now)

/-- A sequence of store operations applied in order. -/
def applyOps (st : Store) (ops : List StoreOp) : Store :=
  ops.foldl applyOp st

/-- Modelled from the spec: the Dispatcher's classification of a sink
response (§4.4). -/
inductive DeliveryOutcome where
  | Success
  | RetryableFailure
  | PermanentFailure
deriving DecidableEq, Repr

/-- Modelled from the spec: the Dispatcher's per-item retry loop within one
cycle (§4.4); its source is missing from the visible repository.  `sink n`
is the sink's classification of attempt number `n`; `budget` is the bounded
maximum attempt count remaining in this cycle.  `Success` commits
`mark_delivered`; `PermanentFailure` commits `mark_failed permanent`;
`RetryableFailure` commits `mark_failed` non-permanent and retries; an
exhausted budget stops, leaving the item `pending` for the next cycle. -/
def deliverLoop (sink : Nat → DeliveryOutcome) (k : String × String) (now : Nat) :
    Store → Nat → Nat → Store
  | st, 0, _ => st
  | st, budget + 1, n =>
    match sink n with
    | .Success => runStore st (mark_delivered st k now)
    | .PermanentFailure => runStore st (mark_failed st k true now)
    | .RetryableFailure =>
        deliverLoop sink k now (runStore st (mark_failed st k false now))
          budget (n + 1)

/-! ## Lemmas about the Item Store -/

theorem hasKey_append (st ext : Store) (k : String × String) :
    hasKey (st ++ ext) k = (hasKey st k || hasKey ext k) := by
  simp [hasKey, List.any_append]

theorem insert_new_fst_eq_append (l : List ContentItem) :
    ∀ st : Store, (insert_new st l).1 = st ++ ((insert_new st l).2).map freshRecord := by
  induction l with
  | nil => intro st; simp [insert_new]
  | cons c rest ih =>
    intro st
    by_cases h : hasKey st (keyOf c) = true
    · simpa [insert_new, h] using ih st
    · simp [insert_new, h, ih (st ++ [freshRecord c])]

theorem hasKey_insert_mono {st : Store} {k : String × String}
    (l : List ContentItem) (h : hasKey st k = true) :
    hasKey (insert_new st l).1 k = true := by
  rw [insert_new_fst_eq_append, hasKey_append, h, Bool.true_or]

theorem hasKey_insert_of_mem (l : List ContentItem) :
    ∀ (st : Store) (c : ContentItem), c ∈ l →
      hasKey (insert_new st l).1 (keyOf c) = true := by
  induction l with
  | nil => intro st c hc; cases hc
  | cons d rest ih =>
    intro st c hc
    by_cases h : hasKey st (keyOf d) = true
    · rcases List.mem_cons.mp hc with rfl | hc'
      · simpa [insert_new, h] using hasKey_insert_mono rest h
      · simpa [insert_new, h] using ih st c hc'
    · rcases List.mem_cons.mp hc with rfl | hc'
      · simp only [insert_new, h, if_false]
        apply hasKey_insert_mono
        simp [hasKey_append, hasKey, freshRecord]
      · simpa [insert_new, h] using ih (st ++ [freshRecord d]) c hc'

theorem insert_new_all_known (l : List ContentItem) :
    ∀ st : Store, (∀ c ∈ l, hasKey st (keyOf c) = true) →
      insert_new st l = (st, []) := by
  induction l with
  | nil => intro st _; rfl
  | cons d rest ih =>
    intro st h
    have hd := h d (List.mem_cons_self d rest)
    simpa [insert_new, hd] using
      ih st (fun c hc => h c (List.mem_cons_of_mem d hc))

theorem countKey_append (st ext : Store) (k : String × String) :
    countKey (st ++ ext) k = countKey st k + countKey ext k := by
  simp [countKey, List.filter_append]

theorem countKey_eq_zero {st : Store} {k : String × String}
    (h : hasKey st k = false) : countKey st k = 0 := by
  have h' : ∀ r ∈ st, ¬(keyOf r.item == k) = true := by
    simpa [hasKey] using h
  simp [countKey, List.filter_eq_nil_iff.mpr h']

theorem one_le_countKey {st : Store} {k : String × String}
    (h : hasKey st k = true) : 1 ≤ countKey st k := by
  obtain ⟨r, hr, hp⟩ := List.any_eq_true.mp h
  have hm : r ∈ st.filter (fun r => keyOf r.item == k) :=
    List.mem_filter.mpr ⟨hr, hp⟩
  exact List.length_pos.mpr (List.ne_nil_of_mem hm)

theorem countKey_singleton (r : DeliveryRecord) (k : String × String) :
    countKey [r] k = if keyOf r.item = k then 1 else 0 := by
  by_cases h : keyOf r.item = k
  · simp [countKey, List.filter, h]
  · have hb : (keyOf r.item == k) = false := beq_eq_false_iff_ne.mpr h
    simp [countKey, List.filter, hb, h]

theorem NoDupKeys_append_fresh {st : Store} {c : ContentItem}
    (h : NoDupKeys st) (hc : hasKey st (keyOf c) = false) :
    NoDupKeys (st ++ [freshRecord c]) := by
  intro k
  rw [countKey_append, countKey_singleton]
  by_cases hk : keyOf (freshRecord c).item = k
  · have hz : countKey st k = 0 := by
      have : keyOf c = k := hk
      rw [← this]
      exact countKey_eq_zero hc
    simp [hk, hz]
  · simpa [hk] using h k

theorem NoDupKeys_insert (l : List ContentItem) :
    ∀ st : Store, NoDupKeys st → NoDupKeys (insert_new st l).1 := by
  induction l with
  | nil => intro st h; simpa [insert_new] using h
  | cons c rest ih =>
    intro st h
    by_cases hc : hasKey st (keyOf c) = true
    · simpa [insert_new, hc] using ih st h
    · have hc' : hasKey st (keyOf c) = false := by
        simpa using hc
      simpa [insert_new, hc] using
        ih (st ++ [freshRecord c]) (NoDupKeys_append_fresh h hc')

/-- C2: Idempotent discovery.  Starting from a store satisfying the
uniqueness invariant, inserting a sequence of items and then inserting the
same sequence again inserts nothing the second time (every item is silently
skipped, with no error, and the empty list is returned), the store holds
exactly one record per unique `(source_name, source_id)` among the inserted
items, and each call returns only the items it actually inserted (the store
grows by exactly the records of the returned items). -/
theorem C2_idempotent_discovery (st : Store) (items : List ContentItem)
    (h : NoDupKeys st) :
    insert_new (insert_new st items).1 items = ((insert_new st items).1, []) ∧
    (insert_new st items).1 =
      st ++ ((insert_new st items).2).map freshRecord ∧
    NoDupKeys (insert_new st items).1 ∧
    ∀ c ∈ items, countKey (insert_new st items).1 (keyOf c) = 1 := by
  refine ⟨?_, insert_new_fst_eq_append items st, NoDupKeys_insert items st h, ?_⟩
  · exact insert_new_all_known items _ (fun c hc => hasKey_insert_of_mem items st c hc)
  · intro c hc
    have h1 := one_le_countKey (hasKey_insert_of_mem items st c hc)
    have h2 := NoDupKeys_insert items st h (keyOf c)
    omega

/-! ## Sample data used to instantiate the theorems -/

/-- A sample content item. -/
def itemA : ContentItem :=
  { source_name := "tiktok", source_id := "a1", discovered_at := 1, payload := "u1" }

/-- Another sample content item with a distinct key. -/
def itemB : ContentItem :=
  { source_name := "tiktok", source_id := "b2", discovered_at := 2, payload := "u2" }

theorem C2_idempotent_discovery_witness :
    NoDupKeys ([] : Store) ∧
    (insert_new (insert_new ([] : Store) [itemA, itemB]).1 [itemA, itemB] =
        ((insert_new ([] : Store) [itemA, itemB]).1, []) ∧
      (insert_new ([] : Store) [itemA, itemB]).1 =
        ([] : Store) ++ ((insert_new ([] : Store) [itemA, itemB]).2).map freshRecord ∧
      NoDupKeys (insert_new ([] : Store) [itemA, itemB]).1 ∧
      ∀ c ∈ [itemA, itemB],
        countKey (insert_new ([] : Store) [itemA, itemB]).1 (keyOf c) = 1) :=
  have hnd : NoDupKeys ([] : Store) := fun _ => by simp [countKey]
  ⟨hnd, C2_idempotent_discovery [] [itemA, itemB] hnd⟩

/-! ## Lemmas about record updates -/

theorem updateFirst_find?_same (p : DeliveryRecord → Bool)
    (f : DeliveryRecord → DeliveryRecord) (hf : ∀ r, p (f r) = p r) :
    ∀ st : Store, (updateFirst p f st).find? p = (st.find? p).map f := by
  intro st
  induction st with
  | nil => rfl
  | cons r rest ih =>
    by_cases h : p r = true
    · rw [updateFirst, if_pos h, List.find?_cons_of_pos _ ((hf r).trans h),
        List.find?_cons_of_pos _ h, Option.map_some']
    · have h' : p r = false := by simpa using h
      rw [updateFirst, if_neg h, List.find?_cons_of_neg _ (by simp [h']),
        List.find?_cons_of_neg _ (by simp [h']), ih]

theorem updateFirst_find?_other (p q : DeliveryRecord → Bool)
    (f : DeliveryRecord → DeliveryRecord) (hf : ∀ r, p (f r) = p r)
    (hpq : ∀ r, q r = true → p r = false) :
    ∀ st : Store, (updateFirst q f st).find? p = st.find? p := by
  intro st
  induction st with
  | nil => rfl
  | cons r rest ih =>
    by_cases hq : q r = true
    · have hp : p r = false := hpq r hq
      rw [updateFirst, if_pos hq, List.find?_cons_of_neg _ (by simp [(hf r).trans hp]),
        List.find?_cons_of_neg _ (by simp [hp])]
    · by_cases hp : p r = true
      · rw [updateFirst, if_neg hq, List.find?_cons_of_pos _ hp,
          List.find?_cons_of_pos _ hp]
      · have hp' : p r = false := by simpa using hp
        rw [updateFirst, if_neg hq, List.find?_cons_of_neg _ (by simp [hp']),
          List.find?_cons_of_neg _ (by simp [hp']), ih]

theorem updateFirst_eq_self {p : DeliveryRecord → Bool}
    {f : DeliveryRecord → DeliveryRecord} {r : DeliveryRecord} :
    ∀ st : Store, st.find? p = some r → f r = r → updateFirst p f st = st := by
  intro st
  induction st with
  | nil => intro h; cases h
  | cons a rest ih =>
    intro hfind hfr
    by_cases h : p a = true
    · rw [List.find?_cons_of_pos _ h, Option.some.injEq] at hfind
      rw [updateFirst, if_pos h, hfind, hfr]
    · have h' : p a = false := by simpa using h
      rw [List.find?_cons_of_neg _ (by simp [h'])] at hfind
      rw [updateFirst, if_neg h, ih hfind hfr]

theorem deliverUpdate_item (now : Nat) (r : DeliveryRecord) :
    (deliverUpdate now r).item = r.item := by
  cases h : r.status <;> simp [deliverUpdate, h]

theorem failUpdate_item (permanent : Bool) (now : Nat) (r : DeliveryRecord) :
    (failUpdate permanent now r).item = r.item :=
  rfl

theorem deliverUpdate_of_pending {r : DeliveryRecord} (now : Nat)
    (h : r.status = .pending) :
    (deliverUpdate now r).status = .delivered ∧
    (deliverUpdate now r).delivered_at = some now := by
  simp [deliverUpdate, h]

theorem deliverUpdate_eq_self {r : DeliveryRecord} (now : Nat)
    (h : r.status ≠ .pending) : deliverUpdate now r = r := by
  cases hs : r.status with
  | pending => exact absurd hs h
  | delivered => simp [deliverUpdate, hs]
  | failed_permanent => simp [deliverUpdate, hs]

theorem hasKey_iff_recordOf (st : Store) (k : String × String) :
    hasKey st k = true ↔ (recordOf st k).isSome = true := by
  simp [hasKey, recordOf, List.any_eq_true, List.find?_isSome]

/-- C4 (amended): `mark_delivered` fails with `NotFoundError` exactly when no
record for the key exists; when the record exists and is already `delivered`
or `failed_permanent` it is a no-op (the store is unchanged and no error is
raised); when the record is `pending` it sets its status to `delivered` and
sets `delivered_at`. -/
theorem C4_mark_delivered_contract (st : Store) (k : String × String) (now : Nat) :
    (mark_delivered st k now = .error .NotFoundError ↔ hasKey st k = false) ∧
    (statusOf st k = some .delivered → mark_delivered st k now = .ok st) ∧
    (statusOf st k = some .failed_permanent → mark_delivered st k now = .ok st) ∧
    (statusOf st k = some .pending →
      ∃ st', mark_delivered st k now = .ok st' ∧
        statusOf st' k = some .delivered ∧
        deliveredAtOf st' k = some (some now)) := by
  have noop : ∀ s : Status, s ≠ .pending → statusOf st k = some s →
      mark_delivered st k now = .ok st := by
    intro s hs hst
    obtain ⟨r, hr, hrs⟩ := Option.map_eq_some'.mp hst
    have hk : hasKey st k = true :=
      (hasKey_iff_recordOf st k).mpr (by rw [hr]; rfl)
    rw [recordOf] at hr
    rw [mark_delivered, if_pos hk,
      updateFirst_eq_self st hr (deliverUpdate_eq_self now (by rw [hrs]; exact hs))]
  refine ⟨?_, noop .delivered (by simp), noop .failed_permanent (by simp), ?_⟩
  · cases h : hasKey st k <;> simp [mark_delivered, h]
  · intro hst
    obtain ⟨r, hr, hrs⟩ := Option.map_eq_some'.mp hst
    have hk : hasKey st k = true :=
      (hasKey_iff_recordOf st k).mpr (by rw [hr]; rfl)
    rw [recordOf] at hr
    have hfind := updateFirst_find?_same (fun r => keyOf r.item == k)
        (deliverUpdate now) (fun r => by simp only [deliverUpdate_item]) st
    rw [hr, Option.map_some'] at hfind
    refine ⟨updateFirst (fun r => keyOf r.item == k) (deliverUpdate now) st,
      by rw [mark_delivered, if_pos hk], ?_, ?_⟩
    · rw [statusOf, recordOf, hfind, Option.map_some',
        (deliverUpdate_of_pending now hrs).1]
    · rw [deliveredAtOf, recordOf, hfind, Option.map_some',
        (deliverUpdate_of_pending now hrs).2]

/-- A record already in `failed_permanent`, for exercising `mark_delivered`
on a non-pending, non-delivered record. -/
def failedRecordA : DeliveryRecord :=
  { item := itemA, status := .failed_permanent, attempts := 2,
    last_attempt_at := some 3, delivered_at := none }

theorem C4_claim_counterexample :
    hasKey [failedRecordA] (keyOf itemA) = true ∧
    statusOf [failedRecordA] (keyOf itemA) ≠ some .delivered ∧
    mark_delivered [failedRecordA] (keyOf itemA) 7 = .ok [failedRecordA] ∧
    statusOf [failedRecordA] (keyOf itemA) = some .failed_permanent := by
  refine ⟨rfl, by decide, rfl, rfl⟩

theorem C4_mark_delivered_contract_witness :
    statusOf [freshRecord itemA] (keyOf itemA) = some .pending ∧
    (∃ st', mark_delivered [freshRecord itemA] (keyOf itemA) 5 = .ok st' ∧
      statusOf st' (keyOf itemA) = some .delivered ∧
      deliveredAtOf st' (keyOf itemA) = some (some 5)) :=
  ⟨rfl, (C4_mark_delivered_contract [freshRecord itemA] (keyOf itemA) 5).2.2.2 rfl⟩

/-! ## Lemmas about status transitions -/

theorem statusOf_insert {st : Store} {k : String × String} {s : Status}
    (items : List ContentItem) (h : statusOf st k = some s) :
    statusOf (insert_new st items).1 k = some s := by
  obtain ⟨r, hr, hrs⟩ := Option.map_eq_some'.mp h
  rw [recordOf] at hr
  rw [statusOf, recordOf, insert_new_fst_eq_append, List.find?_append, hr]
  simp [hrs]

theorem failUpdate_status (permanent : Bool) (now : Nat) (r : DeliveryRecord) :
    (failUpdate permanent now r).status =
      if permanent && r.status == .pending then .failed_permanent else r.status :=
  rfl

theorem applyOp_status_step (st : Store) (op : StoreOp) (k : String × String)
    (s : Status) (h : statusOf st k = some s) :
    statusOf (applyOp st op) k = some s ∨
      (s = .pending ∧
        (statusOf (applyOp st op) k = some .delivered ∨
         statusOf (applyOp st op) k = some .failed_permanent)) := by
  obtain ⟨r, hr, hrs⟩ := Option.map_eq_some'.mp h
  rw [recordOf] at hr
  cases op with
  | insert items => exact Or.inl (statusOf_insert items h)
  | markDelivered k' now =>
    rw [applyOp]
    by_cases hk : hasKey st k' = true
    · rw [mark_delivered, if_pos hk, runStore]
      by_cases hkk : k' = k
      · subst hkk
        have hfind := updateFirst_find?_same (fun r => keyOf r.item == k')
            (deliverUpdate now) (fun r => by simp only [deliverUpdate_item]) st
        rw [hr, Option.map_some'] at hfind
        rw [statusOf, recordOf, hfind, Option.map_some']
        cases hs : r.status with
        | pending =>
          exact Or.inr ⟨by rw [← hrs, hs],
            Or.inl (by rw [(deliverUpdate_of_pending now hs).1])⟩
        | delivered =>
          exact Or.inl (by rw [deliverUpdate_eq_self now (by rw [hs]; simp), hrs]) 
        | failed_permanent =>
          exact Or.inl (by rw [deliverUpdate_eq_self now (by rw [hs]; simp), hrs])
      · left
        have hother := updateFirst_find?_other (fun r => keyOf r.item == k)
            (fun r => keyOf r.item == k') (deliverUpdate now)
            (fun r => by simp only [deliverUpdate_item])
            (fun r hq => by
              rw [beq_iff_eq] at hq
              exact beq_eq_false_iff_ne.mpr (by rw [hq]; exact hkk)) st
        rw [statusOf, recordOf, hother, hr, Option.map_some', hrs]
    · rw [mark_delivered, if_neg hk, runStore]
      exact Or.inl h
  | markFailed k' permanent now =>
    rw [applyOp]
    by_cases hk : hasKey st k' = true
    · rw [mark_failed, if_pos hk, runStore]
      by_cases hkk : k' = k
      · subst hkk
        have hfind := updateFirst_find?_same (fun r => keyOf r.item == k')
            (failUpdate permanent now) (fun r => by simp only [failUpdate_item]) st
        rw [hr, Option.map_some'] at hfind
        rw [statusOf, recordOf, hfind, Option.map_some', failUpdate_status]
        by_cases hc : (permanent && r.status == Status.pending) = true
        · obtain ⟨hp, hsp⟩ := Bool.and_eq_true_iff.mp hc
          rw [beq_iff_eq] at hsp
          exact Or.inr ⟨by rw [← hrs, hsp], Or.inr (by rw [if_pos hc])⟩
        · exact Or.inl (by rw [if_neg hc, hrs])
      · left
        have hother := updateFirst_find?_other (fun r => keyOf r.item == k)
            (fun r => keyOf r.item == k') (failUpdate permanent now)
            (fun r => by simp only [failUpdate_item])
            (fun r hq => by
              rw [beq_iff_eq] at hq
              exact beq_eq_false_iff_ne.mpr (by rw [hq]; exact hkk)) st
        rw [statusOf, recordOf, hother, hr, Option.map_some', hrs]
    · rw [mark_failed, if_neg hk, runStore]
      exact Or.inl h

theorem applyOps_preserves_final (ops : List StoreOp) :
    ∀ (st : Store) (k : String × String),
      (statusOf st k = some .delivered →
        statusOf (applyOps st ops) k = some .delivered) ∧
      (statusOf st k = some .failed_permanent →
        statusOf (applyOps st ops) k = some .failed_permanent) := by
  induction ops with
  | nil => intro st k; exact ⟨id, id⟩
  | cons op rest ih =>
    intro st k
    constructor
    · intro h
      rcases applyOp_status_step st op k .delivered h with h' | ⟨hpend, _⟩
      · exact (ih (applyOp st op) k).1 h'
      · exact absurd hpend (by decide)
    · intro h
      rcases applyOp_status_step st op k .failed_permanent h with h' | ⟨hpend, _⟩
      · exact (ih (applyOp st op) k).2 h'
      · exact absurd hpend (by decide)

/-- C3: Monotonic delivery state.  Over any sequence of store operations, a
record whose status is `delivered` or `failed_permanent` never changes status
again, and a single store operation only ever takes the transitions
`pending → delivered` and `pending → failed_permanent` (otherwise the status
is unchanged). -/
theorem C3_monotonic_delivery_state :
    (∀ (st : Store) (ops : List StoreOp) (k : String × String),
      (statusOf st k = some .delivered →
        statusOf (applyOps st ops) k = some .delivered) ∧
      (statusOf st k = some .failed_permanent →
        statusOf (applyOps st ops) k = some .failed_permanent)) ∧
    (∀ (st : Store) (op : StoreOp) (k : String × String) (s s' : Status),
      statusOf st k = some s → statusOf (applyOp st op) k = some s' →
      s' = s ∨ (s = .pending ∧ (s' = .delivered ∨ s' = .failed_permanent))) := by
  constructor
  · intro st ops k
    exact applyOps_preserves_final ops st k
  · intro st op k s s' h h'
    rcases applyOp_status_step st op k s h with h2 | ⟨hp, h2 | h2⟩
    · rw [h2] at h'
      exact Or.inl (Option.some.inj h').symm
    · rw [h2] at h'
      exact Or.inr ⟨hp, Or.inl (Option.some.inj h').symm⟩
    · rw [h2] at h'
      exact Or.inr ⟨hp, Or.inr (Option.some.inj h').symm⟩

/-- A record already delivered, used to instantiate the theorems below. -/
def deliveredRecordA : DeliveryRecord :=
  { item := itemA, status := .delivered, attempts := 1,
    last_attempt_at := some 2, delivered_at := some 2 }

theorem C3_monotonic_delivery_state_witness :
    statusOf [deliveredRecordA] (keyOf itemA) = some .delivered ∧
    statusOf
      (applyOps [deliveredRecordA]
        [.markFailed (keyOf itemA) true 9, .markDelivered (keyOf itemA) 9])
      (keyOf itemA) = some .delivered :=
  ⟨rfl,
    (C3_monotonic_delivery_state.1 [deliveredRecordA]
      [.markFailed (keyOf itemA) true 9, .markDelivered (keyOf itemA) 9]
      (keyOf itemA)).1 rfl⟩

/-- C5: `pending_items` fairness and bound.  It returns at most `limit`
items, ordered by `discovered_at` ascending, and every returned item is the
item of a record of the store whose status is `pending` and whose source is
the requested one. -/
theorem C5_pending_items_fair_bounded (st : Store) (s : String) (limit : Nat) :
    (pending_items st s limit).length ≤ limit ∧
    (pending_items st s limit).Pairwise
      (fun a b => a.discovered_at ≤ b.discovered_at) ∧
    ∀ c ∈ pending_items st s limit,
      ∃ r ∈ st, r.item = c ∧ r.status = .pending ∧ c.source_name = s := by
  refine ⟨List.length_take_le _ _, ?_, ?_⟩
  · have hs := List.sorted_insertionSort byTime
      ((st.filter
          (fun r => r.status == .pending && r.item.source_name == s)).map (·.item))
    exact ((hs.sublist (List.take_sublist _ _)).imp (fun h => h))
  · intro c hc
    have hc1 : c ∈ List.insertionSort byTime
        ((st.filter
            (fun r => r.status == .pending && r.item.source_name == s)).map (·.item)) :=
      List.mem_of_mem_take hc
    have hc2 := (List.mem_insertionSort byTime).mp hc1
    obtain ⟨r, hrf, hri⟩ := List.mem_map.mp hc2
    obtain ⟨hrs, hpred⟩ := List.mem_filter.mp hrf
    obtain ⟨hp1, hp2⟩ := Bool.and_eq_true_iff.mp hpred
    rw [beq_iff_eq] at hp1 hp2
    exact ⟨r, hrs, hri, hp1, by rw [← hri]; exact hp2⟩

theorem C5_pending_items_fair_bounded_witness :
    itemA ∈ pending_items [freshRecord itemB, freshRecord itemA] "tiktok" 2 ∧
    ∃ r ∈ [freshRecord itemB, freshRecord itemA],
      r.item = itemA ∧ r.status = .pending ∧ itemA.source_name = "tiktok" :=
  ⟨by decide,
    (C5_pending_items_fair_bounded [freshRecord itemB, freshRecord itemA]
      "tiktok" 2).2.2 itemA (by decide)⟩

/-! ## Lemmas about the Deduplicator -/

theorem contains_append (l₁ l₂ : List String) (x : String) :
    (l₁ ++ l₂).contains x = (l₁.contains x || l₂.contains x) := by
  induction l₁ with
  | nil => simp
  | cons a t ih => simp [List.contains_cons, ih, Bool.or_assoc]

theorem dedupFirstAux_congr (l : List RawItem) :
    ∀ s₁ s₂ : List String, (∀ x, s₁.contains x = s₂.contains x) →
      dedupFirstAux s₁ l = dedupFirstAux s₂ l := by
  induction l with
  | nil => intro s₁ s₂ _; rfl
  | cons r rest ih =>
    intro s₁ s₂ h
    simp only [dedupFirstAux, h r.id]
    by_cases hc : s₂.contains r.id = true
    · rw [if_pos hc, if_pos hc]
      exact ih s₁ s₂ h
    · rw [if_neg hc, if_neg hc]
      rw [ih (r.id :: s₁) (r.id :: s₂)
        (fun x => by rw [List.contains_cons, List.contains_cons, h x])]

theorem diff_eq_dedupFirstAux (s : String) (now : Nat) (l : List RawItem) :
    ∀ known : List String,
      diff s now l known = (dedupFirstAux known l).map (toContentItem s now) := by
  induction l with
  | nil => intro known; rfl
  | cons r rest ih =>
    intro known
    by_cases hc : known.contains r.id = true
    · simp only [diff, dedupFirstAux, if_pos hc]
      exact ih known
    · simp only [diff, dedupFirstAux, if_neg hc, List.map_cons]
      rw [ih (r.id :: known)]

theorem filter_dedupFirstAux (known : List String) (l : List RawItem) :
    ∀ seen : List String,
      (dedupFirstAux seen l).filter (fun r => !(known.contains r.id)) =
        dedupFirstAux (known ++ seen) l := by
  induction l with
  | nil => intro seen; rfl
  | cons r rest ih =>
    intro seen
    by_cases hs : seen.contains r.id = true
    · have h2 : (known ++ seen).contains r.id = true := by
        rw [contains_append, hs, Bool.or_true]
      simp only [dedupFirstAux, if_pos hs, if_pos h2]
      exact ih seen
    · have hs' : seen.contains r.id = false := by simpa using hs
      by_cases hk : known.contains r.id = true
      · have h2 : (known ++ seen).contains r.id = true := by
          rw [contains_append, hk, Bool.true_or]
        have hpr : (!(known.contains r.id)) = false := by rw [hk]; rfl
        simp only [dedupFirstAux, if_neg hs, if_pos h2, List.filter_cons, hpr,
          Bool.false_eq_true, if_false]
        rw [ih (r.id :: seen)]
        exact dedupFirstAux_congr rest (known ++ r.id :: seen) (known ++ seen)
          (fun x => by
            rw [contains_append, List.contains_cons, contains_append]
            by_cases hx : x = r.id
            · subst hx
              rw [hk]
              simp
            · rw [beq_eq_false_iff_ne.mpr hx, Bool.false_or])
      · have hk' : known.contains r.id = false := by simpa using hk
        have h2 : (known ++ seen).contains r.id = false := by
          rw [contains_append, hk', hs']
          rfl
        have hpr : (!(known.contains r.id)) = true := by rw [hk']; rfl
        simp only [dedupFirstAux, if_neg hs, List.filter_cons, hpr, if_true]
        rw [ih (r.id :: seen)]
        rw [dedupFirstAux_congr rest (known ++ r.id :: seen) (r.id :: (known ++ seen))
          (fun x => by
            rw [contains_append, List.contains_cons, List.contains_cons,
              contains_append]
            cases known.contains x <;> cases (x == r.id) <;>
              cases seen.contains x <;> rfl)]
        rw [h2]
        simp

/-- C6: `diff` is a pure function that returns exactly the raw items whose id
is absent from `known`, mapped to ContentItems, preserving fetch order; when
an id occurs more than once in the snapshot only its first occurrence in
fetch order is kept.  Formally, `diff` coincides with first deduplicating
the snapshot by id (keeping first occurrences), then filtering out the known
ids, then mapping each survivor to a ContentItem. -/
theorem C6_diff_pure_filter_map (s : String) (now : Nat)
    (raws : List RawItem) (known : List String) :
    diff s now raws known =
      ((dedupFirst raws).filter (fun r => !(known.contains r.id))).map
        (toContentItem s now) := by
  rw [diff_eq_dedupFirstAux, dedupFirst, filter_dedupFirstAux known raws [],
    List.append_nil]

/-! ## Lemmas about the Dispatcher's retry loop -/

theorem mem_pending_items_of_record {st : Store} {r : DeliveryRecord}
    (hr : r ∈ st) (hp : r.status = .pending) {s : String}
    (hs : r.item.source_name = s) :
    r.item ∈ pending_items st s st.length := by
  have hf : r ∈ st.filter
      (fun r => r.status == .pending && r.item.source_name == s) :=
    List.mem_filter.mpr ⟨hr, by simp [hp, hs]⟩
  have hm2 : r.item ∈ List.insertionSort byTime
      ((st.filter
          (fun r => r.status == .pending && r.item.source_name == s)).map
        (·.item)) :=
    (List.mem_insertionSort byTime).mpr (List.mem_map_of_mem _ hf)
  have hlen : (List.insertionSort byTime
      ((st.filter
          (fun r => r.status == .pending && r.item.source_name == s)).map
        (·.item))).length ≤ st.length := by
    rw [List.length_insertionSort, List.length_map]
    exact List.length_filter_le _ _
  rw [pending_items, List.take_of_length_le hlen]
  exact hm2

theorem recordOf_mark_failed {st : Store} {k : String × String}
    {r : DeliveryRecord} (hr : recordOf st k = some r)
    (permanent : Bool) (now : Nat) :
    recordOf (runStore st (mark_failed st k permanent now)) k =
      some (failUpdate permanent now r) := by
  have hk : hasKey st k = true :=
    (hasKey_iff_recordOf st k).mpr (by rw [hr]; rfl)
  rw [recordOf] at hr
  have hfind := updateFirst_find?_same (fun r => keyOf r.item == k)
      (failUpdate permanent now) (fun r => by simp only [failUpdate_item]) st
  rw [hr, Option.map_some'] at hfind
  rw [mark_failed, if_pos hk, runStore, recordOf]
  exact hfind

theorem recordOf_mark_delivered {st : Store} {k : String × String}
    {r : DeliveryRecord} (hr : recordOf st k = some r) (now : Nat) :
    recordOf (runStore st (mark_delivered st k now)) k =
      some (deliverUpdate now r) := by
  have hk : hasKey st k = true :=
    (hasKey_iff_recordOf st k).mpr (by rw [hr]; rfl)
  rw [recordOf] at hr
  have hfind := updateFirst_find?_same (fun r => keyOf r.item == k)
      (deliverUpdate now) (fun r => by simp only [deliverUpdate_item]) st
  rw [hr, Option.map_some'] at hfind
  rw [mark_delivered, if_pos hk, runStore, recordOf]
  exact hfind

theorem deliverLoop_all_retryable (sink : Nat → DeliveryOutcome)
    (k : String × String) (now : Nat)
    (hsink : ∀ j, sink j = .RetryableFailure) :
    ∀ (m n : Nat) (st : Store) (r : DeliveryRecord),
      recordOf st k = some r → r.status = .pending →
      ∃ r', recordOf (deliverLoop sink k now st m n) k = some r' ∧
        r'.status = .pending ∧ r'.attempts = r.attempts + m ∧
        r'.item = r.item := by
  intro m
  induction m with
  | zero =>
    intro n st r hr hp
    exact ⟨r, by simpa [deliverLoop] using hr, hp, rfl, rfl⟩
  | succ m ih =>
    intro n st r hr hp
    have hst1 := recordOf_mark_failed hr false now
    have hp1 : (failUpdate false now r).status = .pending := by
      rw [failUpdate_status]
      simp [hp]
    obtain ⟨r', h1, h2, h3, h4⟩ := ih (n + 1) _ _ hst1 hp1
    simp only [deliverLoop, hsink n]
    refine ⟨r', h1, h2, ?_, ?_⟩
    · rw [h3]
      simp only [failUpdate]
      omega
    · rw [h4]
      rfl

theorem deliverLoop_perm_only (sink : Nat → DeliveryOutcome)
    (k : String × String) (now : Nat) :
    ∀ (m n : Nat) (st : Store),
      statusOf st k = some .pending →
      statusOf (deliverLoop sink k now st m n) k = some .failed_permanent →
      ∃ j, sink j = .PermanentFailure := by
  intro m
  induction m with
  | zero =>
    intro n st hp hf
    rw [deliverLoop, hp] at hf
    exact absurd (Option.some.inj hf) (by decide)
  | succ m ih =>
    intro n st hp hf
    obtain ⟨r, hr, hrs⟩ := Option.map_eq_some'.mp hp
    cases ho : sink n with
    | Success =>
      simp only [deliverLoop, ho] at hf
      rw [statusOf, recordOf_mark_delivered hr now, Option.map_some',
        (deliverUpdate_of_pending now hrs).1] at hf
      exact absurd (Option.some.inj hf) (by decide)
    | PermanentFailure => exact ⟨n, ho⟩
    | RetryableFailure =>
      simp only [deliverLoop, ho] at hf
      refine ih (n + 1) _ ?_ hf
      rw [statusOf, recordOf_mark_failed hr false now, Option.map_some',
        failUpdate_status]
      simp [hrs]

/-- C7: Retry bounded, not lost.  If every attempt of a cycle's retry loop
gets `RetryableFailure` (up to the cycle's bounded attempt budget), the
item's record is still `pending` afterwards, its attempts count has grown by
exactly the number of attempts made, and `pending_items` re-offers the item
(with a sufficient limit) on the next cycle; and the loop only ever moves a
pending item to `failed_permanent` when the sink classified some attempt as
`PermanentFailure`. -/
theorem C7_retry_bounded_not_lost :
    (∀ (sink : Nat → DeliveryOutcome) (st : Store) (k : String × String)
        (now m n : Nat) (r : DeliveryRecord),
      (∀ j, sink j = .RetryableFailure) →
      recordOf st k = some r → r.status = .pending →
      statusOf (deliverLoop sink k now st m n) k = some .pending ∧
      attemptsOf (deliverLoop sink k now st m n) k = some (r.attempts + m) ∧
      r.item ∈ pending_items (deliverLoop sink k now st m n)
        r.item.source_name (deliverLoop sink k now st m n).length) ∧
    (∀ (sink : Nat → DeliveryOutcome) (st : Store) (k : String × String)
        (now m n : Nat),
      statusOf st k = some .pending →
      statusOf (deliverLoop sink k now st m n) k = some .failed_permanent →
      ∃ j, sink j = .PermanentFailure) := by
  constructor
  · intro sink st k now m n r hsink hr hp
    obtain ⟨r', h1, h2, h3, h4⟩ :=
      deliverLoop_all_retryable sink k now hsink m n st r hr hp
    refine ⟨?_, ?_, ?_⟩
    · rw [statusOf, h1, Option.map_some', h2]
    · rw [attemptsOf, h1, Option.map_some', h3]
    · have hmem : r' ∈ deliverLoop sink k now st m n := by
        rw [recordOf] at h1
        exact List.mem_of_find?_eq_some h1
      have := mem_pending_items_of_record hmem h2 (s := r.item.source_name)
        (by rw [h4])
      rwa [h4] at this
  · intro sink st k now m n hp hf
    exact deliverLoop_perm_only sink k now m n st hp hf

/-- A sink that classifies every attempt as retryable. -/
def retrySink : Nat → DeliveryOutcome :=
  fun _ => .RetryableFailure

/-- A sink that classifies every attempt as a permanent rejection. -/
def permSink : Nat → DeliveryOutcome :=
  fun _ => .PermanentFailure

theorem C7_retry_bounded_not_lost_witness :
    (statusOf (deliverLoop retrySink (keyOf itemA) 9 [freshRecord itemA] 3 1)
        (keyOf itemA) = some .pending ∧
      attemptsOf (deliverLoop retrySink (keyOf itemA) 9 [freshRecord itemA] 3 1)
        (keyOf itemA) = some ((freshRecord itemA).attempts + 3) ∧
      (freshRecord itemA).item ∈
        pending_items (deliverLoop retrySink (keyOf itemA) 9 [freshRecord itemA] 3 1)
          (freshRecord itemA).item.source_name
          (deliverLoop retrySink (keyOf itemA) 9 [freshRecord itemA] 3 1).length) ∧
    (∃ j, permSink j = .PermanentFailure) :=
  ⟨C7_retry_bounded_not_lost.1 retrySink [freshRecord itemA] (keyOf itemA) 9 3 1
      (freshRecord itemA) (fun _ => rfl) rfl rfl,
    C7_retry_bounded_not_lost.2 permSink [freshRecord itemB] (keyOf itemB) 9 1 0
      rfl (by decide)⟩

theorem diff_source_name (s : String) (now : Nat) (l : List RawItem) :
    ∀ (known : List String) (c : ContentItem),
      c ∈ diff s now l known → c.source_name = s := by
  induction l with
  | nil => intro known c hc; cases hc
  | cons r rest ih =>
    intro known c hc
    by_cases h : known.contains r.id = true
    · simp only [diff, if_pos h] at hc
      exact ih known c hc
    · simp only [diff, if_neg h] at hc
      rcases List.mem_cons.mp hc with rfl | hc'
      · rfl
      · exact ih _ c hc'

/-- C8: No lost items.  If `diff` against the store's known ids returns a
batch of new items and `insert_new` accepts the whole batch, then a
`pending_items` call made before any delivery, with a sufficient limit,
returns every one of those items. -/
theorem C8_no_lost_items (st : Store) (s : String) (now : Nat)
    (raws : List RawItem)
    (hacc : (insert_new st (diff s now raws (known_ids st s))).2 =
      diff s now raws (known_ids st s)) :
    ∀ c ∈ diff s now raws (known_ids st s),
      c ∈ pending_items (insert_new st (diff s now raws (known_ids st s))).1 s
        (insert_new st (diff s now raws (known_ids st s))).1.length := by
  intro c hc
  have h1 := insert_new_fst_eq_append (diff s now raws (known_ids st s)) st
  rw [hacc] at h1
  have hmem : freshRecord c ∈ (insert_new st (diff s now raws (known_ids st s))).1 := by
    rw [h1]
    exact List.mem_append_right st (List.mem_map_of_mem freshRecord hc)
  exact mem_pending_items_of_record hmem rfl
    (diff_source_name s now raws (known_ids st s) c hc)

/-- A sample raw item as fetched from the source. -/
def rawA : RawItem :=
  { id := "a1", payload := "u" }

theorem C8_no_lost_items_witness :
    (insert_new ([] : Store) (diff "tiktok" 4 [rawA] (known_ids [] "tiktok"))).2 =
      diff "tiktok" 4 [rawA] (known_ids [] "tiktok") ∧
    toContentItem "tiktok" 4 rawA ∈
      pending_items
        (insert_new ([] : Store)
          (diff "tiktok" 4 [rawA] (known_ids [] "tiktok"))).1
        "tiktok"
        (insert_new ([] : Store)
          (diff "tiktok" 4 [rawA] (known_ids [] "tiktok"))).1.length :=
  ⟨rfl, C8_no_lost_items [] "tiktok" 4 [rawA] rfl
    (toContentItem "tiktok" 4 rawA) (by decide)⟩
